import Mathlib

set_option maxHeartbeats 1600000

/-!
Verification of the artifact-graph scheduler: a shallow embedding of
`graph.ts` (`sortBuilders`, `findUnreachableArtifacts`) and
`artifact_graph.ts` (`ArtifactGraph`, its constructor and `run` loop),
with theorems checking the documented behaviour.

Builders are modelled positionally: a list entry stands for one builder
object, and the list index plays the role of JavaScript object identity
(`Map` keys, `includes`, `indexOf`).  Thrown exceptions are modelled with
`Except String`; JavaScript `Map`/record tables are association lists.
-/

namespace AG

/-- Static signature of a builder: the `name`, `inputs()` and `outputs()`
members of the TypeScript `ArtifactBuilder` interface, which are the only
members `sortBuilders` and `findUnreachableArtifacts` consult. -/
structure BuilderSig where
  name : String
  inputs : List String
  outputs : List String
deriving Repr, DecidableEq, Inhabited

/-- Every builder's declared outputs, concatenated in registration order:
the order in which the `outputToBuilder` map construction of
`sortBuilders` scans output ids. -/
def outputsConcat (builders : List BuilderSig) : List String :=
  (builders.map BuilderSig.outputs).flatten

/-- The error message thrown by the duplicate-producer check. -/
def dupErr (o : String) : String :=
  "Duplicate builders detected for artifact \"" ++ o ++ "\""

/-- The error message thrown when a Kahn round finds no ready builder. -/
def cycleErr : String := "Cyclic dependency detected among builders"

/-- Scan a list of output ids left to right with the set `seen` of ids
already registered; return the first id that repeats an earlier
occurrence, as the `outputToBuilder` construction of `sortBuilders`
does (it throws at the first output id already present in the map). -/
def firstDuplicate : List String → List String → Option String
  | [], _ => none
  | o :: rest, seen => if o ∈ seen then some o else firstDuplicate rest (o :: seen)

/-- Index of the builder registered as producer of artifact `a`: the
first builder whose declared outputs contain `a` (the one the
`outputToBuilder` map records; unique once the duplicate check passed). -/
def findProducer (builders : List BuilderSig) (a : String) : Option Nat :=
  (List.range builders.length).find? (fun j => decide (a ∈ (builders.getD j default).outputs))

/-- Direct dependency set of builder `i`: the producers of its declared
inputs, with `i` itself removed (`depBuilder !== builder` in the source:
a builder cannot depend on itself). -/
def depsOf (builders : List BuilderSig) (i : Nat) : List Nat :=
  (((builders.getD i default).inputs).filterMap (findProducer builders)).filter
    (fun j => decide (¬ j = i))

/-- Kahn-style topological grouping over the still-unscheduled builder
indices `pending` (kept in original registration order, mirroring the
insertion-order iteration of the `deps` map).  Each round collects the
builders all of whose dependencies have already been scheduled (i.e. are
no longer pending), errors when that set is empty, otherwise removes the
round's builders and recurses.  `fuel` bounds the number of rounds; it is
initialised to the number of builders, which lemmas below show is never
exhausted before `pending` empties. -/
def kahn (builders : List BuilderSig) : Nat → List Nat → Except String (List (List Nat))
  | _, [] => .ok []
  | 0, _ :: _ => .error cycleErr
  | fuel + 1, i :: rest =>
    let pending := i :: rest
    let ready := pending.filter (fun a => decide (∀ j ∈ depsOf builders a, ¬ j ∈ pending))
    if ready = [] then .error cycleErr
    else
      match kahn builders fuel (pending.filter (fun a => decide (¬ a ∈ ready))) with
      | .ok batches => .ok (ready :: batches)
      | .error e => .error e

/-- `sortBuilders` of `graph.ts`, over builder indices: first the
duplicate-producer check over the concatenated outputs, then the Kahn
grouping of all builder indices.  A batch holds indices into the input
list. -/
def sortBuilders (builders : List BuilderSig) : Except String (List (List Nat)) :=
  match firstDuplicate (outputsConcat builders) [] with
  | some o => .error (dupErr o)
  | none => kahn builders builders.length (List.range builders.length)

/-- Keep the first occurrence of every element, dropping later repeats:
the order a JavaScript `Set` built by successive insertions iterates in.
`fuel` bounds the recursion depth structurally; the initial list length
always suffices since filtering only shrinks the list. -/
def dedupFirstAux : Nat → List String → List String
  | 0, _ => []
  | _, [] => []
  | fuel + 1, x :: xs => x :: dedupFirstAux fuel (xs.filter (fun y => decide (¬ y = x)))

/-- First occurrence of every element, in order (JavaScript `Set`
iteration order). -/
def dedupFirst (l : List String) : List String := dedupFirstAux l.length l

/-- The universe of mentioned artifact ids: every declared output and
every declared input, first occurrences first (outputs are inserted
before inputs, as in the source). -/
def universeIds (builders : List BuilderSig) : List String :=
  dedupFirst ((builders.map BuilderSig.outputs).flatten ++ (builders.map BuilderSig.inputs).flatten)

/-- One pass of the reachability loop of `findUnreachableArtifacts`:
scan the remaining builder indices in order; a builder whose declared
inputs are all reachable fires, appending its outputs to the reachable
set immediately (the source mutates the `reachable` set while iterating
over a snapshot of `remaining`).  Returns the still-remaining indices,
the grown reachable set, and whether any builder fired. -/
def firePass (builders : List BuilderSig) :
    List Nat → List String → List Nat × List String × Bool
  | [], reachable => ([], reachable, false)
  | i :: rest, reachable =>
    if ((builders.getD i default).inputs).all (fun a => decide (a ∈ reachable)) then
      let r := firePass builders rest (reachable ++ (builders.getD i default).outputs)
      (r.1, r.2.1, true)
    else
      let r := firePass builders rest reachable
      (i :: r.1, r.2.1, r.2.2)

/-- Repeat `firePass` while it makes progress (`advanced` in the
source).  `fuel` bounds the number of passes; initialised to one more
than the number of builders, it is never exhausted before a pass makes
no progress. -/
def reachLoop (builders : List BuilderSig) :
    Nat → List Nat → List String → List String
  | 0, _, reachable => reachable
  | fuel + 1, remaining, reachable =>
    let r := firePass builders remaining reachable
    if r.2.2 then reachLoop builders fuel r.1 r.2.1 else reachable

/-- `findUnreachableArtifacts` of `graph.ts`: the mentioned ids that are
not in the reachability fixpoint computed from the empty set. -/
def findUnreachableArtifacts (builders : List BuilderSig) : List String :=
  let reachable := reachLoop builders (builders.length + 1) (List.range builders.length) []
  (universeIds builders).filter (fun a => decide (¬ a ∈ reachable))

/-- A `schema.Artifact`: metadata map (string keyed, the engine only
reads and writes string values under `"artifactGraph.id"`) plus an
opaque payload standing for the artifact's parts. -/
structure Artifact where
  metadata : List (String × String)
  payload : String
deriving Repr, DecidableEq, Inhabited

/-- Read a key of an association list (first binding wins, as a record
lookup). -/
def lget {β : Type} (m : List (String × β)) (k : String) : Option β :=
  (m.find? (fun p => p.1 == k)).map (fun p => p.2)

/-- Overwrite a key of an association list, dropping any prior binding
(record assignment / spread-with-override semantics). -/
def lset {β : Type} (m : List (String × β)) (k : String) (v : β) : List (String × β) :=
  (k, v) :: m.filter (fun p => !(p.1 == k))

/-- The metadata key the engine tags produced artifacts with. -/
def idTag : String := "artifactGraph.id"

/-- `update.artifact.metadata = { ...update.artifact.metadata,
"artifactGraph.id": update.id }`. -/
def setMeta (a : Artifact) (k v : String) : Artifact :=
  { a with metadata := lset a.metadata k v }

/-- A `UniqueArtifact`: an artifact wrapper carrying its declared id. -/
structure UniqueArtifact where
  id : String
  artifact : Artifact
deriving Repr, DecidableEq, Inhabited

/-- The run-state artifact table (`const artifacts = ...` in `run`). -/
abbrev Table := List (String × UniqueArtifact)

/-- An `a2a` task: the engine only reads its optional `artifacts`. -/
structure Task where
  artifacts : Option (List Artifact)
deriving Repr, DecidableEq, Inhabited

/-- A value yielded by a builder's `build` generator: either a
`TaskYieldUpdate` (opaque to the engine, forwarded verbatim; modelled by
its text) or a produced `UniqueArtifact` (the `isUniqueArtifact` test
distinguishes the two). -/
inductive BuildYield where
  | update (u : String)
  | artifact (ua : UniqueArtifact)
deriving Repr, DecidableEq

/-- The context handed to a builder's `build`. -/
structure BuildContext where
  task : Task
  history : Option (List String)
  inputs : List (String × UniqueArtifact)

/-- A full `ArtifactBuilder`: signature plus the `build` body, modelled
as the finite sequence of values its generator yields. -/
structure ArtifactBuilder where
  name : String
  inputs : List String
  outputs : List String
  build : BuildContext → List BuildYield

instance : Inhabited ArtifactBuilder := ⟨⟨"", [], [], fun _ => []⟩⟩

/-- The static signature of a full builder. -/
def ArtifactBuilder.sig (b : ArtifactBuilder) : BuilderSig :=
  ⟨b.name, b.inputs, b.outputs⟩

/-- An `ArtifactCondition`: required input ids, the predicate over the
resolved inputs, and the `then` ids naming the builders it gates. -/
structure Condition where
  inputs : List String
  cif : List (String × UniqueArtifact) → Bool
  thenIds : List String

/-- An `ArtifactGraph`: the keys of the `artifactFactories` record (each
key's factory wraps a raw artifact into the `UniqueArtifact` of that
id), the registered builders, and the registered conditions. -/
structure ArtifactGraph where
  factoryIds : List String
  builders : List ArtifactBuilder
  conditions : List Condition

/-- Events the engine yields to the caller: `TaskYieldUpdate`-style
status messages (modelled by their text) and produced raw artifacts. -/
inductive RunEvent where
  | status (s : String)
  | artifact (a : Artifact)
deriving Repr, DecidableEq

/-- The `ArtifactGraph` constructor of `artifact_graph.ts`: runs the
reachability check over the builder set alone (no run-time artifacts are
in scope) and throws listing every unreachable id when the set is
non-empty. -/
def mkArtifactGraph (factoryIds : List String) (builders : List ArtifactBuilder)
    (conditions : List Condition) : Except String ArtifactGraph :=
  let unreachable := findUnreachableArtifacts (builders.map ArtifactBuilder.sig)
  if unreachable = [] then .ok ⟨factoryIds, builders, conditions⟩
  else .error ("Unreachable artifact(s): " ++ String.intercalate ", " unreachable)

/-- Load the task's pre-existing artifacts into the table: an artifact
whose `"artifactGraph.id"` metadata is absent or falsy (the empty
string) is skipped; otherwise the id's factory wraps it and the result
is stored under the id.  Looking up a factory for an id that has none is
a runtime type error. -/
def loadArtifacts (factoryIds : List String) : List Artifact → Table → Except String Table
  | [], t => .ok t
  | a :: rest, t =>
    match lget a.metadata idTag with
    | none => loadArtifacts factoryIds rest t
    | some id =>
      if id = "" then loadArtifacts factoryIds rest t
      else if id ∈ factoryIds then loadArtifacts factoryIds rest (lset t id ⟨id, a⟩)
      else .error ("TypeError: artifactFactories[" ++ id ++ "] is not a function")

/-- Does the table already hold every declared output of the builder?
(`b.outputs().every((o) => artifacts[o])`.) -/
def allOutputsPresent (t : Table) (b : ArtifactBuilder) : Bool :=
  b.outputs.all (fun o => (lget t o).isSome)

/-- Names of the builders skipped at run start because all their outputs
are already in the table (`skippedBuilders`, then collected into
`skippedBuildersSet` by name). -/
def skippedNames (g : ArtifactGraph) (t0 : Table) : List String :=
  (g.builders.filter (fun b => allOutputsPresent t0 b)).map ArtifactBuilder.name

/-- The builders that are not skipped at run start, in registration
order (`this.builders.filter((b) => !skippedBuilders.includes(b))`). -/
def nonSkippedBuilders (g : ArtifactGraph) (t0 : Table) : List ArtifactBuilder :=
  g.builders.filter (fun b => !(allOutputsPresent t0 b))

/-- The registered conditions relevant to a builder: those whose `then`
set intersects the builder's declared inputs or declared outputs. -/
def relevantConditions (conditions : List Condition) (b : ArtifactBuilder) : List Condition :=
  conditions.filter (fun c =>
    b.inputs.any (fun id => decide (id ∈ c.thenIds)) ||
    b.outputs.any (fun id => decide (id ∈ c.thenIds)))

/-- Resolve a condition's required inputs from the table in declaration
order; the first absent id aborts with the error of the source, naming
the gated builder and the id. -/
def resolveCondInputs (n : String) (t : Table) :
    List String → Except String (List (String × UniqueArtifact))
  | [] => .ok []
  | r :: rest =>
    match lget t r with
    | none => .error (n ++ ": Condition requires artifact " ++ r ++ " which is missing")
    | some v =>
      match resolveCondInputs n t rest with
      | .ok ins => .ok ((r, v) :: ins)
      | .error e => .error e

/-- Evaluate a builder's relevant conditions in registration order:
resolve each condition's inputs (aborting on a missing one) and apply
its predicate; the first false predicate stops the loop with `false`. -/
def evalConditions (n : String) (t : Table) : List Condition → Except String Bool
  | [] => .ok true
  | c :: rest =>
    match resolveCondInputs n t c.inputs with
    | .error e => .error e
    | .ok ins => if c.cif ins then evalConditions n t rest else .ok false

/-- Resolve a builder's declared inputs from the table in declaration
order; an absent id aborts with the invariant-violation error of the
source. -/
def resolveInputs (n : String) (t : Table) :
    List String → Except String (List (String × UniqueArtifact))
  | [] => .ok []
  | k :: rest =>
    match lget t k with
    | none => .error (n ++ ": Artifact " ++ k ++ " is not found")
    | some v =>
      match resolveInputs n t rest with
      | .ok ins => .ok ((k, v) :: ins)
      | .error e => .error e

/-- Process the values yielded by a builder's `build`: a status update
is forwarded verbatim; a produced artifact has its id written into its
metadata under `"artifactGraph.id"`, is stored in the table under its id
(overwriting any prior value), and its raw artifact is forwarded. -/
def processYields (t : Table) : List BuildYield → Table × List RunEvent
  | [] => (t, [])
  | .update u :: rest =>
    let r := processYields t rest
    (r.1, .status u :: r.2)
  | .artifact ua :: rest =>
    let tagged := setMeta ua.artifact idTag ua.id
    let r := processYields (lset t ua.id ⟨ua.id, tagged⟩) rest
    (r.1, .artifact tagged :: r.2)

/-- The loop body of `run` for one builder: the name-based skip guard,
condition gating (a false condition skips the builder, with a verbose
notice), input resolution, and execution.  Returns the new table, the
yielded events, and whether the builder's `build` was invoked. -/
def processBuilder (g : ArtifactGraph) (skipped : List String) (task : Task)
    (history : Option (List String)) (verbose : Bool) (t : Table) (b : ArtifactBuilder) :
    Except String (Table × List RunEvent × Bool) :=
  if b.name ∈ skipped then
    .ok (t,
      (if verbose then
        [.status (b.name ++ " skipped because its outputs are already calculated")]
      else []), false)
  else
    match evalConditions b.name t (relevantConditions g.conditions b) with
    | .error e => .error e
    | .ok conditionsPassed =>
      if conditionsPassed then
        match resolveInputs b.name t b.inputs with
        | .error e => .error e
        | .ok ins =>
          let r := processYields t (b.build ⟨task, history, ins⟩)
          .ok (r.1, r.2, true)
      else
        .ok (t,
          (if verbose then
            [.status (b.name ++ " skipped because condition(s) not satisfied")]
          else []), false)

/-- Run the scheduled builders in order, threading the table and
concatenating the yielded events. -/
def runBuilders (g : ArtifactGraph) (skipped : List String) (task : Task)
    (history : Option (List String)) (verbose : Bool) :
    Table → List ArtifactBuilder → Except String (Table × List RunEvent)
  | t, [] => .ok (t, [])
  | t, b :: rest =>
    match processBuilder g skipped task history verbose t b with
    | .error e => .error e
    | .ok r =>
      match runBuilders g skipped task history verbose r.1 rest with
      | .error e => .error e
      | .ok s => .ok (s.1, r.2.1 ++ s.2)

/-- The verbose execution-plan notice. -/
def planText (skipped : List String) (plan : List (List String)) : String :=
  "\nFollowing builders will be skipped, because results are already calculated:\n"
    ++ String.intercalate ", " skipped
    ++ "\n\nExecution plan:\n"
    ++ String.intercalate " -> "
        (plan.map (fun names => "[" ++ String.intercalate ", " names ++ "]"))
    ++ "\n            "

/-- The verbose end-of-run artifacts summary: a factory id counts as
calculated when it is in the table or (as in the source, which compares
artifact ids against builder names) in the skipped-builder name set. -/
def summaryText (g : ArtifactGraph) (t : Table) (skipped : List String) : String :=
  let calculated := g.factoryIds.filter
    (fun k => (lget t k).isSome || decide (k ∈ skipped))
  let missing := g.factoryIds.filter
    (fun k => !((lget t k).isSome || decide (k ∈ skipped)))
  "Artifacts summary:\n  ✅ Calculated: " ++ String.intercalate ", " calculated
    ++ "\n  ❌ Missing: " ++ String.intercalate ", " missing ++ "\n              "

/-- The flattened execution order of a run whose initial table is `t0`:
sort the non-skipped builders and map the batch positions back to the
builders (sequential per-batch execution flattens the two loops). -/
def scheduleOf (g : ArtifactGraph) (t0 : Table) : Except String (List ArtifactBuilder) :=
  match sortBuilders ((nonSkippedBuilders g t0).map ArtifactBuilder.sig) with
  | .error e => .error e
  | .ok batches =>
    .ok (batches.flatten.map (fun p => (nonSkippedBuilders g t0).getD p default))

/-- `ArtifactGraph.run`: load the pre-existing artifacts, compute the
skip set and the execution plan, optionally announce the plan, execute
every scheduled builder, and optionally append the artifacts summary.
The run's yielded values are returned in order; a thrown error is the
`Except` error. -/
def ArtifactGraph.run (g : ArtifactGraph) (task : Task)
    (history : Option (List String)) (verbose : Bool) : Except String (List RunEvent) :=
  match loadArtifacts g.factoryIds (task.artifacts.getD []) [] with
  | .error e => .error e
  | .ok t0 =>
    match sortBuilders ((nonSkippedBuilders g t0).map ArtifactBuilder.sig) with
    | .error e => .error e
    | .ok batches =>
      let names := fun p => ((nonSkippedBuilders g t0).getD p default).name
      let planEvents := if verbose then
          [RunEvent.status (planText (skippedNames g t0) (batches.map (fun batch => batch.map names)))]
        else []
      let seq := batches.flatten.map (fun p => (nonSkippedBuilders g t0).getD p default)
      match runBuilders g (skippedNames g t0) task history verbose t0 seq with
      | .error e => .error e
      | .ok r =>
        let summaryEvents := if verbose then
            [RunEvent.status (summaryText g r.1 (skippedNames g t0))] else []
        .ok (planEvents ++ r.2 ++ summaryEvents)

/-! ## Properties of the duplicate-producer check -/

lemma firstDuplicate_eq_none {l seen : List String} :
    firstDuplicate l seen = none ↔ l.Nodup ∧ ∀ x ∈ l, x ∉ seen := by
  induction l generalizing seen with
  | nil => simp [firstDuplicate]
  | cons o rest ih =>
    simp only [firstDuplicate]
    by_cases h : o ∈ seen
    · rw [if_pos h]
      constructor
      · intro hc; cases hc
      · rintro ⟨-, hall⟩
        exact absurd h (hall o (List.mem_cons_self o rest))
    · rw [if_neg h, ih]
      simp only [List.nodup_cons, List.mem_cons, not_or]
      constructor
      · rintro ⟨hnd, hall⟩
        refine ⟨⟨fun hm => (hall o hm).1 rfl, hnd⟩, fun x hx => ?_⟩
        rcases hx with rfl | hx
        · exact h
        · exact (hall x hx).2
      · rintro ⟨⟨h1, hnd⟩, hall⟩
        exact ⟨hnd, fun x hx => ⟨fun he => h1 (he ▸ hx), hall x (Or.inr hx)⟩⟩

lemma firstDuplicate_eq_some {l seen : List String} {o : String}
    (h : firstDuplicate l seen = some o) :
    o ∈ l ∧ (o ∈ seen ∨ 2 ≤ l.count o) := by
  induction l generalizing seen with
  | nil => simp [firstDuplicate] at h
  | cons x rest ih =>
    simp only [firstDuplicate] at h
    by_cases hx : x ∈ seen
    · rw [if_pos hx] at h
      cases h
      exact ⟨List.mem_cons_self _ _, Or.inl hx⟩
    · rw [if_neg hx] at h
      obtain ⟨hor, hrest⟩ := ih h
      refine ⟨List.mem_cons_of_mem _ hor, ?_⟩
      rcases hrest with hseen | hcount
      · rcases List.mem_cons.mp hseen with rfl | hs
        · right
          have h1 : 0 < rest.count o := List.count_pos_iff.mpr hor
          rw [List.count_cons_self]
          omega
        · exact Or.inl hs
      · right
        rw [List.count_cons]
        omega

lemma firstDuplicate_of_not_nodup {l : List String} (h : ¬ l.Nodup) :
    ∃ o, firstDuplicate l [] = some o ∧ 2 ≤ l.count o := by
  cases he : firstDuplicate l [] with
  | none => exact absurd (firstDuplicate_eq_none.mp he).1 h
  | some o =>
    obtain ⟨-, hor⟩ := firstDuplicate_eq_some he
    rcases hor with hseen | hc
    · simp at hseen
    · exact ⟨o, rfl, hc⟩

lemma count_le_count_flatten {L : List (List String)} {x : List String}
    (hx : x ∈ L) (v : String) : x.count v ≤ L.flatten.count v := by
  induction L with
  | nil => simp at hx
  | cons y rest ih =>
    rw [List.flatten_cons, List.count_append]
    rcases List.mem_cons.mp hx with rfl | hx'
    · omega
    · have := ih hx'
      omega

lemma getD_map_outputs {l : List BuilderSig} {i : Nat} (h : i < l.length) :
    (l.map BuilderSig.outputs).getD i [] = (l.getD i default).outputs := by
  rw [List.getD_eq_getElem _ _ (by simpa using h), List.getElem_map,
    List.getD_eq_getElem _ _ h]

lemma getD_outputs_mem {l : List BuilderSig} {i : Nat} (h : i < l.length) :
    (l.getD i default).outputs ∈ l.map BuilderSig.outputs := by
  rw [← getD_map_outputs h, List.getD_eq_getElem _ _ (by simpa using h)]
  exact List.getElem_mem _

lemma two_le_count_flatten {L : List (List String)} {i j : Nat} {v : String}
    (hij : i < j) (hj : j < L.length)
    (hvi : v ∈ L.getD i []) (hvj : v ∈ L.getD j []) :
    2 ≤ L.flatten.count v := by
  induction L generalizing i j with
  | nil => simp at hj
  | cons x rest ih =>
    rw [List.flatten_cons, List.count_append]
    cases i with
    | zero =>
      cases j with
      | zero => omega
      | succ j' =>
        have hj' : j' < rest.length := by simpa using hj
        have h1 : 0 < x.count v := List.count_pos_iff.mpr (by simpa using hvi)
        have h2 : 0 < (rest.getD j' []).count v :=
          List.count_pos_iff.mpr (by simpa using hvj)
        have hmem : rest.getD j' [] ∈ rest := by
          rw [List.getD_eq_getElem _ _ hj']
          exact List.getElem_mem _
        have h3 := count_le_count_flatten hmem v
        omega
    | succ i' =>
      cases j with
      | zero => omega
      | succ j' =>
        have := ih (Nat.lt_of_succ_lt_succ hij) (by simpa using hj)
          (by simpa using hvi) (by simpa using hvj)
        omega

/-- C7: if two distinct builders each declare the same artifact id among
their outputs, `sortBuilders` fails with the duplicate-producer error,
naming a conflicting (twice-declared) artifact id, and hence produces no
batches. -/
theorem sortBuilders_duplicate_producer (builders : List BuilderSig)
    (i j : Nat) (a : String) (hij : ¬ i = j)
    (hi : i < builders.length) (hj : j < builders.length)
    (hai : a ∈ (builders.getD i default).outputs)
    (haj : a ∈ (builders.getD j default).outputs) :
    ∃ o, 2 ≤ (outputsConcat builders).count o ∧
      sortBuilders builders = .error (dupErr o) := by
  have h2 : 2 ≤ (outputsConcat builders).count a := by
    unfold outputsConcat
    rcases Nat.lt_or_ge i j with hlt | hge
    · exact two_le_count_flatten hlt (by simpa using hj)
        (by rw [getD_map_outputs hi]; exact hai)
        (by rw [getD_map_outputs hj]; exact haj)
    · have hlt : j < i := Nat.lt_of_le_of_ne hge (fun e => hij e.symm)
      exact two_le_count_flatten hlt (by simpa using hi)
        (by rw [getD_map_outputs hj]; exact haj)
        (by rw [getD_map_outputs hi]; exact hai)
  have hnn : ¬ (outputsConcat builders).Nodup := by
    rw [List.nodup_iff_count_le_one]
    push_neg
    exact ⟨a, by omega⟩
  obtain ⟨o, ho, hc⟩ := firstDuplicate_of_not_nodup hnn
  refine ⟨o, hc, ?_⟩
  unfold sortBuilders
  rw [ho]

/-- Witness for C7 at a concrete input: two builders both producing
`"x"`. -/
theorem sortBuilders_duplicate_producer_witness :
    ∃ o, 2 ≤ (outputsConcat [⟨"a", [], ["x"]⟩, ⟨"b", [], ["x"]⟩]).count o ∧
      sortBuilders [⟨"a", [], ["x"]⟩, ⟨"b", [], ["x"]⟩] = .error (dupErr o) :=
  sortBuilders_duplicate_producer _ 0 1 "x" (by decide) (by decide) (by decide)
    (by decide) (by decide)

/-- C10: if a single builder lists the same artifact id `v` twice among
its own outputs (and no other id is declared twice anywhere, so `v` is
the conflict the message can name), `sortBuilders` fails with the
duplicate-producer error naming `v` itself: the check rejects repeated
output ids outright, not only conflicts between two distinct builders. -/
theorem sortBuilders_single_builder_duplicate (builders : List BuilderSig)
    (i : Nat) (v : String) (hi : i < builders.length)
    (hv : 2 ≤ ((builders.getD i default).outputs).count v)
    (honly : ∀ w ∈ outputsConcat builders, ¬ w = v → (outputsConcat builders).count w ≤ 1) :
    sortBuilders builders = .error (dupErr v) := by
  have hc : 2 ≤ (outputsConcat builders).count v :=
    le_trans hv (count_le_count_flatten (getD_outputs_mem hi) v)
  have hnn : ¬ (outputsConcat builders).Nodup := by
    rw [List.nodup_iff_count_le_one]
    push_neg
    exact ⟨v, by omega⟩
  obtain ⟨o, ho, hoc⟩ := firstDuplicate_of_not_nodup hnn
  have homem : o ∈ outputsConcat builders := by
    have : 0 < (outputsConcat builders).count o := by omega
    exact List.count_pos_iff.mp this
  have hov : o = v := by
    by_contra hne
    have := honly o homem hne
    omega
  subst hov
  unfold sortBuilders
  rw [ho]

/-- Witness for C10 at a concrete input: one builder declaring
`["a", "a"]`. -/
theorem sortBuilders_single_builder_duplicate_witness :
    sortBuilders [⟨"b", [], ["a", "a"]⟩] = .error (dupErr "a") :=
  sortBuilders_single_builder_duplicate _ 0 "a" (by decide) (by decide) (by decide)

/-! ## In-batch ordering -/

lemma kahn_batches_pairwise {builders : List BuilderSig} :
    ∀ fuel pending batches, List.Pairwise (· < ·) pending →
      kahn builders fuel pending = .ok batches →
      ∀ b ∈ batches, List.Pairwise (· < ·) b := by
  intro fuel
  induction fuel with
  | zero =>
    intro pending batches hp h b hb
    cases pending with
    | nil => simp only [kahn] at h; cases h; simp at hb
    | cons i rest => simp only [kahn] at h; cases h
  | succ fuel ih =>
    intro pending batches hp h b hb
    cases pending with
    | nil => simp only [kahn] at h; cases h; simp at hb
    | cons i rest =>
      simp only [kahn] at h
      split at h
      · cases h
      · rename_i hne
        split at h
        · rename_i rest' hrec
          cases h
          rcases List.mem_cons.mp hb with rfl | hb'
          · exact hp.filter _
          · exact ih _ _ (hp.filter _) hrec b hb'
        · cases h

/-- C8: within every batch returned by `sortBuilders`, builders appear
in strictly increasing original-registration-index order, so for a fixed
input ordering the batch output is a deterministic function of the input
(the embedding is a pure function of the builder list). -/
theorem sortBuilders_batches_ordered (builders : List BuilderSig)
    (batches : List (List Nat)) (h : sortBuilders builders = .ok batches) :
    ∀ b ∈ batches, List.Pairwise (· < ·) b := by
  unfold sortBuilders at h
  split at h
  · cases h
  · exact kahn_batches_pairwise _ _ _ (List.pairwise_lt_range _) h

/-- Witness for C8 at the concrete four-builder example of the source's
doc comment, instantiated at its middle batch `[2, 3]`. -/
theorem sortBuilders_batches_ordered_witness :
    List.Pairwise (fun x y => x < y) ([2, 3] : List Nat) :=
  sortBuilders_batches_ordered
    [⟨"B1", ["A", "B", "C"], ["E"]⟩, ⟨"B2", [], ["A", "B"]⟩,
     ⟨"B3", ["A"], ["C", "D"]⟩, ⟨"B4", ["B"], ["F"]⟩] _ (by rfl)
    [2, 3] (by decide)

/-! ## Condition relevance -/

/-- C6: the conditions evaluated for a builder (the list
`relevantConditions`, which `processBuilder` hands to `evalConditions`)
are exactly the registered conditions whose `then` set intersects the
builder's declared inputs or its declared outputs — in particular a
condition naming one of the builder's own output ids gates it. -/
theorem relevantConditions_mem_iff (conditions : List Condition)
    (b : ArtifactBuilder) (c : Condition) :
    c ∈ relevantConditions conditions b ↔
      c ∈ conditions ∧
        ((∃ id ∈ b.inputs, id ∈ c.thenIds) ∨ (∃ id ∈ b.outputs, id ∈ c.thenIds)) := by
  unfold relevantConditions
  rw [List.mem_filter]
  simp [List.any_eq_true]

/-! ## Invocation decision (skip set and condition gating) -/

lemma eq_of_nodup_names {l : List ArtifactBuilder} {a b : ArtifactBuilder}
    (h : (l.map ArtifactBuilder.name).Nodup) (ha : a ∈ l) (hb : b ∈ l)
    (hn : a.name = b.name) : a = b := by
  induction l with
  | nil => simp at ha
  | cons x rest ih =>
    rw [List.map_cons, List.nodup_cons] at h
    rcases List.mem_cons.mp ha with rfl | ha' <;> rcases List.mem_cons.mp hb with rfl | hb'
    · rfl
    · exfalso; apply h.1; rw [hn]; exact List.mem_map_of_mem _ hb'
    · exfalso; apply h.1; rw [← hn]; exact List.mem_map_of_mem _ ha'
    · exact ih h.2 ha' hb'

lemma mem_skippedNames_iff {g : ArtifactGraph} {t0 : Table} {b : ArtifactBuilder}
    (hb : b ∈ g.builders) (hN : (g.builders.map ArtifactBuilder.name).Nodup) :
    b.name ∈ skippedNames g t0 ↔ allOutputsPresent t0 b = true := by
  unfold skippedNames
  constructor
  · intro h
    obtain ⟨b', hb', hname⟩ := List.mem_map.mp h
    rw [List.mem_filter] at hb'
    have he : b' = b := eq_of_nodup_names hN hb'.1 hb hname
    rw [← he]
    exact hb'.2
  · intro h
    exact List.mem_map_of_mem _ (List.mem_filter.mpr ⟨hb, h⟩)

/-- C2: in a run started from table `t0` (so with skip set
`skippedNames g t0`, the builders whose outputs were all pre-supplied)
where builder names are unique (the spec's Builder invariant), a builder
step that completes without aborting invokes the builder's `build` if
and only if not all of its declared outputs were present at run start
and its relevant gating conditions all evaluate to true on the current
table; otherwise the builder is skipped without invocation. -/
theorem builder_invoked_iff (g : ArtifactGraph) (task : Task)
    (history : Option (List String)) (verbose : Bool) (t0 t t' : Table)
    (b : ArtifactBuilder) (evs : List RunEvent) (invoked : Bool)
    (hb : b ∈ g.builders) (hN : (g.builders.map ArtifactBuilder.name).Nodup)
    (h : processBuilder g (skippedNames g t0) task history verbose t b =
      .ok (t', evs, invoked)) :
    invoked = true ↔
      (allOutputsPresent t0 b = false ∧
        evalConditions b.name t (relevantConditions g.conditions b) = .ok true) := by
  unfold processBuilder at h
  by_cases hskip : b.name ∈ skippedNames g t0
  · rw [if_pos hskip] at h
    cases h
    have hout : allOutputsPresent t0 b = true := (mem_skippedNames_iff hb hN).mp hskip
    simp [hout]
  · have hout : allOutputsPresent t0 b = false := by
      cases hcase : allOutputsPresent t0 b
      · rfl
      · exact absurd ((mem_skippedNames_iff hb hN).mpr hcase) hskip
    rw [if_neg hskip] at h
    cases hev : evalConditions b.name t (relevantConditions g.conditions b) with
    | error e => rw [hev] at h; cases h
    | ok passed =>
      rw [hev] at h
      cases passed with
      | true =>
        dsimp only at h
        rw [if_pos rfl] at h
        cases hri : resolveInputs b.name t b.inputs with
        | error e => rw [hri] at h; dsimp only at h; cases h
        | ok ins =>
          rw [hri] at h
          dsimp only at h
          cases h
          simp [hout]
      | false =>
        dsimp only at h
        rw [if_neg Bool.false_ne_true] at h
        cases h
        simp [hout]

def cw2Builder : ArtifactBuilder :=
  ⟨"b1", [], ["a"], fun _ => [.artifact ⟨"a", ⟨[], "v"⟩⟩]⟩

def cw2Graph : ArtifactGraph := ⟨["a"], [cw2Builder], []⟩

/-- Witness for C2 at a concrete input: a one-builder graph with nothing
pre-supplied; the builder is invoked. -/
theorem builder_invoked_iff_witness :
    true = true ↔
      (allOutputsPresent [] cw2Builder = false ∧
        evalConditions cw2Builder.name [] (relevantConditions cw2Graph.conditions cw2Builder) =
          .ok true) :=
  builder_invoked_iff cw2Graph ⟨none⟩ none false [] []
    [("a", ⟨"a", ⟨[("artifactGraph.id", "a")], "v"⟩⟩)] cw2Builder
    [.artifact ⟨[("artifactGraph.id", "a")], "v"⟩] true
    (List.mem_singleton_self _) (by decide) (by rfl)

/-! ## Missing condition inputs abort the run -/

lemma resolveCondInputs_missing {n : String} {t : Table} {rs : List String}
    (h : ∃ r ∈ rs, lget t r = none) :
    ∃ r ∈ rs, lget t r = none ∧
      resolveCondInputs n t rs =
        .error (n ++ ": Condition requires artifact " ++ r ++ " which is missing") := by
  induction rs with
  | nil => simp at h
  | cons x rest ih =>
    cases hx : lget t x with
    | none =>
      exact ⟨x, List.mem_cons_self _ _, hx, by simp only [resolveCondInputs, hx]⟩
    | some v =>
      obtain ⟨r, hr, hrn⟩ := h
      rcases List.mem_cons.mp hr with rfl | hr'
      · rw [hx] at hrn; cases hrn
      · obtain ⟨r', hr', hn', he⟩ := ih ⟨r, hr', hrn⟩
        refine ⟨r', List.mem_cons_of_mem _ hr', hn', ?_⟩
        simp only [resolveCondInputs, hx]
        rw [he]

lemma evalConditions_append_true {n : String} {t : Table} {cs1 : List Condition}
    (cs2 : List Condition) (h : evalConditions n t cs1 = .ok true) :
    evalConditions n t (cs1 ++ cs2) = evalConditions n t cs2 := by
  induction cs1 with
  | nil => rfl
  | cons c rest ih =>
    simp only [evalConditions, List.cons_append] at h ⊢
    cases hr : resolveCondInputs n t c.inputs with
    | error e => rw [hr] at h; dsimp only at h; cases h
    | ok ins =>
      rw [hr] at h
      dsimp only at h ⊢
      by_cases hc : c.cif ins = true
      · rw [if_pos hc] at h ⊢; exact ih h
      · rw [if_neg hc] at h; cases h

/-- C5: when a builder is not in the skip set and a relevant gating
condition is reached (all conditions before it evaluated true) while one
of its required input ids is absent from the table, the builder step —
and hence the run, since `runBuilders` propagates every error — aborts
with the error naming the builder and the missing id; the builder is
never silently skipped. -/
theorem condition_missing_input_aborts (g : ArtifactGraph) (task : Task)
    (history : Option (List String)) (verbose : Bool) (t : Table)
    (b : ArtifactBuilder) (skipped : List String) (cs1 cs2 : List Condition)
    (c : Condition) (hns : ¬ b.name ∈ skipped)
    (hsplit : relevantConditions g.conditions b = cs1 ++ c :: cs2)
    (hprev : evalConditions b.name t cs1 = .ok true)
    (hmiss : ∃ r ∈ c.inputs, lget t r = none) :
    ∃ r ∈ c.inputs, lget t r = none ∧
      processBuilder g skipped task history verbose t b =
        .error (b.name ++ ": Condition requires artifact " ++ r ++ " which is missing") := by
  obtain ⟨r, hr, hn, he⟩ := @resolveCondInputs_missing b.name t c.inputs hmiss
  refine ⟨r, hr, hn, ?_⟩
  unfold processBuilder
  rw [if_neg hns, hsplit, evalConditions_append_true _ hprev]
  simp only [evalConditions]
  rw [he]

def cw5Builder : ArtifactBuilder := ⟨"b2", [], ["out"], fun _ => []⟩

def cw5Cond : Condition := ⟨["z"], fun _ => true, ["out"]⟩

def cw5Graph : ArtifactGraph := ⟨["out"], [cw5Builder], [cw5Cond]⟩

/-- Witness for C5 at a concrete input: a condition gating `"out"`
requires the absent artifact `"z"`. -/
theorem condition_missing_input_aborts_witness :
    ∃ r ∈ cw5Cond.inputs, lget ([] : Table) r = none ∧
      processBuilder cw5Graph [] ⟨none⟩ none false [] cw5Builder =
        .error (cw5Builder.name ++ ": Condition requires artifact " ++ r ++
          " which is missing") :=
  condition_missing_input_aborts cw5Graph ⟨none⟩ none false [] cw5Builder []
    [] [] cw5Cond (by decide) (by rfl) (by rfl) ⟨"z", by decide, by rfl⟩

/-! ## Artifact tagging, table writes and pre-existing artifact loading -/

lemma lget_lset_self {β : Type} (m : List (String × β)) (k : String) (v : β) :
    lget (lset m k v) k = some v := by
  simp [lget, lset, List.find?]

lemma find?_filter_ne {β : Type} (m : List (String × β)) (k k' : String)
    (h : ¬ k' = k) :
    (m.filter (fun p => !(p.1 == k))).find? (fun p => p.1 == k') =
      m.find? (fun p => p.1 == k') := by
  induction m with
  | nil => rfl
  | cons a rest ih =>
    rw [List.filter_cons]
    by_cases ha : a.1 = k
    · have h1 : (a.1 == k) = true := beq_iff_eq.mpr ha
      have h2 : (a.1 == k') = false := by
        rw [beq_eq_false_iff_ne, ha]
        exact fun e => h e.symm
      rw [h1]
      simp only [Bool.not_true, Bool.false_eq_true, if_false]
      rw [ih, List.find?_cons, h2]
    · have h1 : (a.1 == k) = false := beq_eq_false_iff_ne.mpr ha
      rw [h1]
      simp only [Bool.not_false, if_true]
      rw [List.find?_cons, List.find?_cons]
      cases hk' : (a.1 == k')
      · exact ih
      · rfl

lemma lget_lset_ne {β : Type} (m : List (String × β)) (k k' : String) (v : β)
    (h : ¬ k' = k) : lget (lset m k v) k' = lget m k' := by
  unfold lget lset
  rw [List.find?_cons]
  have hk : ((k, v).1 == k') = false := by
    simp only [beq_eq_false_iff_ne]
    exact fun e => h e.symm
  rw [hk, find?_filter_ne m k k' h]

lemma processYields_artifact_events {ys : List BuildYield} :
    ∀ t e, RunEvent.artifact e ∈ (processYields t ys).2 →
      ∃ ua, BuildYield.artifact ua ∈ ys ∧ e = setMeta ua.artifact idTag ua.id ∧
        lget e.metadata idTag = some ua.id := by
  induction ys with
  | nil => intro t e he; simp [processYields] at he
  | cons y rest ih =>
    intro t e he
    cases y with
    | update u =>
      simp only [processYields, List.mem_cons] at he
      rcases he with hc | he'
      · cases hc
      · obtain ⟨ua, h1, h2, h3⟩ := ih _ _ he'
        exact ⟨ua, List.mem_cons_of_mem _ h1, h2, h3⟩
    | artifact ua =>
      simp only [processYields, List.mem_cons] at he
      rcases he with hc | he'
      · cases hc
        refine ⟨ua, List.mem_cons_self _ _, rfl, ?_⟩
        show lget (setMeta ua.artifact idTag ua.id).metadata idTag = some ua.id
        unfold setMeta
        exact lget_lset_self _ _ _
      · obtain ⟨ua', h1, h2, h3⟩ := ih _ _ he'
        exact ⟨ua', List.mem_cons_of_mem _ h1, h2, h3⟩

lemma processYields_preserves_id {ys : List BuildYield} :
    ∀ t k w, lget t k = some w → w.id = k →
      ∃ w', lget (processYields t ys).1 k = some w' ∧ w'.id = k := by
  induction ys with
  | nil => intro t k w h1 h2; exact ⟨w, h1, h2⟩
  | cons y rest ih =>
    intro t k w h1 h2
    cases y with
    | update u => exact ih _ _ _ h1 h2
    | artifact ua =>
      by_cases hk : ua.id = k
      · refine ih (lset t ua.id ⟨ua.id, setMeta ua.artifact idTag ua.id⟩) k
          ⟨ua.id, setMeta ua.artifact idTag ua.id⟩ ?_ hk
        rw [hk]
        exact lget_lset_self _ _ _
      · refine ih _ _ w ?_ h2
        rw [lget_lset_ne _ _ _ _ (fun e => hk e.symm)]
        exact h1

lemma processYields_writes {ys : List BuildYield} :
    ∀ t ua, BuildYield.artifact ua ∈ ys →
      ∃ w, lget (processYields t ys).1 ua.id = some w ∧ w.id = ua.id := by
  induction ys with
  | nil => intro t ua h; simp at h
  | cons y rest ih =>
    intro t ua h
    rcases List.mem_cons.mp h with hc | h'
    · cases hc
      exact @processYields_preserves_id rest _ _ _ (lget_lset_self _ _ _) rfl
    · cases y with
      | update u => exact ih _ _ h'
      | artifact ua' => exact ih _ _ h'

lemma loadArtifacts_skips_falsy {fids : List String} {a : Artifact}
    (h : lget a.metadata idTag = none ∨ lget a.metadata idTag = some "") :
    ∀ as1 as2 t, loadArtifacts fids (as1 ++ a :: as2) t = loadArtifacts fids (as1 ++ as2) t := by
  intro as1
  induction as1 with
  | nil =>
    intro as2 t
    rcases h with hn | he
    · simp only [List.nil_append, loadArtifacts, hn]
    · simp [loadArtifacts, he]
  | cons x rest ih =>
    intro as2 t
    simp only [List.cons_append, loadArtifacts]
    cases lget x.metadata idTag with
    | none => exact ih _ _
    | some id =>
      dsimp only
      by_cases hid : id = ""
      · rw [if_pos hid, if_pos hid]
        exact ih _ _
      · rw [if_neg hid, if_neg hid]
        by_cases hfid : id ∈ fids
        · rw [if_pos hfid, if_pos hfid]
          exact ih _ _
        · rw [if_neg hfid, if_neg hfid]

/-- C9: (1) every artifact event the engine forwards while processing a
builder's yields is a yielded artifact tagged in its metadata with
`"artifactGraph.id"` equal to its declared id; (2) writing an id into
the run-state table overwrites any prior value under that id; (3) every
yielded artifact ends up recorded in the table under its id; (4) at run
start, a pre-supplied artifact lacking the `"artifactGraph.id"` metadata
key is ignored by the loading pass and never enters the table. -/
theorem artifact_tagging_and_table :
    (∀ (t : Table) (ys : List BuildYield) (e : Artifact),
      RunEvent.artifact e ∈ (processYields t ys).2 →
        ∃ ua, BuildYield.artifact ua ∈ ys ∧ e = setMeta ua.artifact idTag ua.id ∧
          lget e.metadata idTag = some ua.id) ∧
    (∀ (t : Table) (k : String) (v : UniqueArtifact), lget (lset t k v) k = some v) ∧
    (∀ (t : Table) (ys : List BuildYield) (ua : UniqueArtifact),
      BuildYield.artifact ua ∈ ys →
        ∃ w, lget (processYields t ys).1 ua.id = some w ∧ w.id = ua.id) ∧
    (∀ (fids : List String) (as1 as2 : List Artifact) (a : Artifact) (t : Table),
      lget a.metadata idTag = none →
        loadArtifacts fids (as1 ++ a :: as2) t = loadArtifacts fids (as1 ++ as2) t) :=
  ⟨fun t ys e he => processYields_artifact_events t e he,
   fun t k v => lget_lset_self t k v,
   fun t ys ua h => processYields_writes t ua h,
   fun fids as1 as2 a t h => loadArtifacts_skips_falsy (Or.inl h) as1 as2 t⟩

/-- Witness for C9 at concrete inputs: a yielded artifact is forwarded
tagged and stored, and an untagged pre-supplied artifact is ignored. -/
theorem artifact_tagging_and_table_witness :
    (∃ ua, BuildYield.artifact ua ∈
        [BuildYield.artifact ⟨"a", ⟨[], "v"⟩⟩] ∧
        Artifact.mk [(idTag, "a")] "v" = setMeta ua.artifact idTag ua.id ∧
        lget (Artifact.mk [(idTag, "a")] "v").metadata idTag = some ua.id) ∧
      loadArtifacts ["a"] [⟨[], "p"⟩] [] = loadArtifacts ["a"] [] [] :=
  ⟨artifact_tagging_and_table.1 [] [BuildYield.artifact ⟨"a", ⟨[], "v"⟩⟩]
      (Artifact.mk [(idTag, "a")] "v") (by decide),
   artifact_tagging_and_table.2.2.2 ["a"] [] [] ⟨[], "p"⟩ [] (by rfl)⟩

/-! ## The builder dependency graph and cycles -/

/-- Builder `i` depends on builder `j`: `j` is the registered producer
of one of `i`'s declared inputs and `j ≠ i` (the source removes
self-dependencies), so `j` must be scheduled strictly earlier. -/
def DependsOn (builders : List BuilderSig) (i j : Nat) : Prop :=
  j ∈ depsOf builders i

/-- Builder `j` declares among its outputs one of builder `i`'s declared
inputs: the raw producer/consumer relation (`j = i` allowed). -/
def ProducesInputOf (builders : List BuilderSig) (j i : Nat) : Prop :=
  ∃ a, a ∈ (builders.getD i default).inputs ∧ a ∈ (builders.getD j default).outputs

/-- A cycle in the builder dependency graph used by `sortBuilders`
(producer/consumer edges between distinct builders, self-edges pruned). -/
def HasCycle (builders : List BuilderSig) : Prop :=
  ∃ i, Relation.TransGen (DependsOn builders) i i

/-- A cycle in the raw producer/consumer graph, where a builder
consuming its own output counts as a (length-one) cycle. -/
def HasRawCycle (builders : List BuilderSig) : Prop :=
  ∃ i, Relation.TransGen (fun i j => ProducesInputOf builders j i) i i

lemma depsOf_lt {builders : List BuilderSig} {c a : Nat}
    (h : a ∈ depsOf builders c) : a < builders.length := by
  unfold depsOf at h
  rw [List.mem_filter] at h
  obtain ⟨x, hx, hfp⟩ := List.mem_filterMap.mp h.1
  unfold findProducer at hfp
  have := List.mem_of_find?_eq_some hfp
  simpa using this

lemma cycle_of_forall_succ {R : Nat → Nat → Prop} {P : List Nat} (hne : P ≠ [])
    (h : ∀ i ∈ P, ∃ j ∈ P, R i j) : ∃ i, Relation.TransGen R i i := by
  obtain ⟨x0, hx0⟩ := List.exists_mem_of_ne_nil P hne
  have step : ∀ x : {x // x ∈ P}, ∃ y : {y // y ∈ P}, R x.1 y.1 := by
    intro x
    obtain ⟨j, hj, hr⟩ := h x.1 x.2
    exact ⟨⟨j, hj⟩, hr⟩
  classical
  let f : {x // x ∈ P} → {x // x ∈ P} := fun x => (step x).choose
  have hf : ∀ x, R x.1 (f x).1 := fun x => (step x).choose_spec
  let g : Nat → {x // x ∈ P} := fun n => f^[n] ⟨x0, hx0⟩
  have hchain : ∀ n, R (g n).1 (g (n + 1)).1 := by
    intro n
    have he : g (n + 1) = f (g n) := Function.iterate_succ_apply' f n _
    rw [he]
    exact hf (g n)
  have htrans : ∀ m n, m < n → Relation.TransGen R (g m).1 (g n).1 := by
    intro m n
    induction n with
    | zero => omega
    | succ n ihn =>
      intro hmn
      rcases Nat.lt_succ_iff_lt_or_eq.mp hmn with hlt | heq
      · exact (ihn hlt).tail (hchain n)
      · subst heq
        exact Relation.TransGen.single (hchain m)
  have hmaps : ∀ n ∈ Finset.range (P.length + 1), (g n).1 ∈ P.toFinset :=
    fun n _ => List.mem_toFinset.mpr (g n).2
  have hcard : P.toFinset.card < (Finset.range (P.length + 1)).card := by
    rw [Finset.card_range]
    exact Nat.lt_succ_of_le (List.toFinset_card_le P)
  obtain ⟨m, -, n, -, hne', heq⟩ :=
    Finset.exists_ne_map_eq_of_card_lt_of_maps_to hcard hmaps
  rcases Nat.lt_or_gt_of_ne hne' with hlt | hgt
  · refine ⟨(g m).1, ?_⟩
    have ht := htrans m n hlt
    rwa [← heq] at ht
  · refine ⟨(g n).1, ?_⟩
    have ht := htrans n m hgt
    rwa [heq] at ht

lemma kahn_error_hasCycle {builders : List BuilderSig} :
    ∀ fuel pending e, pending.length ≤ fuel →
      kahn builders fuel pending = .error e → HasCycle builders := by
  intro fuel
  induction fuel with
  | zero =>
    intro pending e hlen h
    cases pending with
    | nil => simp only [kahn] at h; cases h
    | cons i rest => simp at hlen
  | succ fuel ih =>
    intro pending e hlen h
    cases pending with
    | nil => simp only [kahn] at h; cases h
    | cons i rest =>
      simp only [kahn] at h
      split at h
      · rename_i hready
        have hstuck : ∀ a ∈ i :: rest, ∃ j ∈ depsOf builders a, j ∈ i :: rest := by
          intro a ha
          have hnp := List.filter_eq_nil_iff.mp hready a ha
          rw [decide_eq_true_iff] at hnp
          push_neg at hnp
          exact hnp
        exact cycle_of_forall_succ (List.cons_ne_nil i rest)
          (fun a ha => by
            obtain ⟨j, hjd, hjP⟩ := hstuck a ha
            exact ⟨j, hjP, hjd⟩)
      · rename_i hready
        split at h
        · cases h
        · rename_i e' hrec
          apply ih _ e' ?_ hrec
          have hlt : (List.filter
              (fun a => decide (¬ a ∈ List.filter
                (fun a => decide (∀ j ∈ depsOf builders a, ¬ j ∈ i :: rest)) (i :: rest)))
              (i :: rest)).length < (i :: rest).length := by
            rw [List.length_filter_lt_length_iff_exists]
            obtain ⟨a, haready⟩ := List.exists_mem_of_ne_nil _ hready
            refine ⟨a, (List.mem_filter.mp haready).1, ?_⟩
            simp only [decide_eq_true_iff, Decidable.not_not]
            exact haready
          simp only [List.length_cons] at hlt hlen ⊢
          omega

lemma kahn_error_of_trapped {builders : List BuilderSig} (S : Set Nat)
    (hSne : S.Nonempty) (hclosed : ∀ a ∈ S, ∃ b ∈ S, DependsOn builders a b) :
    ∀ fuel pending, (∀ a ∈ S, a ∈ pending) →
      kahn builders fuel pending = .error cycleErr := by
  intro fuel
  induction fuel with
  | zero =>
    intro pending hsub
    cases pending with
    | nil =>
      obtain ⟨a, ha⟩ := hSne
      exact absurd (hsub a ha) (List.not_mem_nil a)
    | cons i rest => rfl
  | succ fuel ih =>
    intro pending hsub
    cases pending with
    | nil =>
      obtain ⟨a, ha⟩ := hSne
      exact absurd (hsub a ha) (List.not_mem_nil a)
    | cons i rest =>
      simp only [kahn]
      have hnready : ∀ a ∈ S,
          a ∉ List.filter
            (fun a => decide (∀ j ∈ depsOf builders a, ¬ j ∈ i :: rest)) (i :: rest) := by
        intro a ha hmem
        have hall := (List.mem_filter.mp hmem).2
        rw [decide_eq_true_iff] at hall
        obtain ⟨b, hbS, hdep⟩ := hclosed a ha
        exact hall b hdep (hsub b hbS)
      split
      · rfl
      · rename_i hready
        have hsub' : ∀ a ∈ S,
            a ∈ List.filter
              (fun a => decide (¬ a ∈ List.filter
                (fun a => decide (∀ j ∈ depsOf builders a, ¬ j ∈ i :: rest)) (i :: rest)))
              (i :: rest) := by
          intro a ha
          refine List.mem_filter.mpr ⟨hsub a ha, ?_⟩
          rw [decide_eq_true_iff]
          exact hnready a ha
        rw [ih _ hsub']

/-- The members of a cycle through `i`: the nodes on some dependency
path from `i` back to `i`. -/
def cycleCore (builders : List BuilderSig) (i : Nat) : Set Nat :=
  {j | Relation.ReflTransGen (DependsOn builders) i j ∧
    Relation.ReflTransGen (DependsOn builders) j i}

lemma dupErr_ne_cycleErr (o : String) : ¬ dupErr o = cycleErr := by
  intro h
  have hl := congrArg String.length h
  simp only [dupErr, cycleErr, String.length_append] at hl
  have h1 : ("Duplicate builders detected for artifact \"").length = 42 := by decide
  have h2 : ("\"" : String).length = 1 := by decide
  have h3 : ("Cyclic dependency detected among builders").length = 41 := by decide
  rw [h1, h2, h3] at hl
  omega

lemma sortBuilders_error_of_hasCycle {builders : List BuilderSig}
    (hnd : (outputsConcat builders).Nodup) (hc : HasCycle builders) :
    sortBuilders builders = .error cycleErr := by
  obtain ⟨i, hi⟩ := hc
  have hclosed : ∀ a ∈ cycleCore builders i,
      ∃ b ∈ cycleCore builders i, DependsOn builders a b := by
    rintro a ⟨hia, hai⟩
    rcases hai.cases_head with rfl | ⟨b, hab, hbi⟩
    · obtain ⟨b, hib, hbi⟩ := Relation.TransGen.head'_iff.mp hi
      exact ⟨b, ⟨Relation.ReflTransGen.single hib, hbi⟩, hib⟩
    · exact ⟨b, ⟨hia.tail hab, hbi⟩, hab⟩
  have hsub : ∀ a ∈ cycleCore builders i, a ∈ List.range builders.length := by
    rintro a ⟨hia, -⟩
    rw [List.mem_range]
    rcases hia.cases_tail with heq | ⟨c, -, hca⟩
    · subst heq
      obtain ⟨c, -, hci⟩ := Relation.TransGen.tail'_iff.mp hi
      exact depsOf_lt hci
    · exact depsOf_lt hca
  have hiC : i ∈ cycleCore builders i :=
    ⟨Relation.ReflTransGen.refl, Relation.ReflTransGen.refl⟩
  have herr := kahn_error_of_trapped (cycleCore builders i) ⟨i, hiC⟩ hclosed
    builders.length (List.range builders.length) hsub
  unfold sortBuilders
  rw [firstDuplicate_eq_none.mpr ⟨hnd, by simp⟩]
  exact herr

/-- C3 counterexample: for the builder set b1:(x)→{y}, b2:(y)→{x},
b3:()→{x}, the dependency graph has a cycle (b1 ↔ b2), yet
`sortBuilders` does not fail with the cycle error — the duplicate
producer of "x" makes it throw the duplicate-producer error first, so
"fails with the cycle error iff there is a cycle" is false as stated. -/
theorem sortBuilders_cycle_error_iff_cex :
    ¬ (sortBuilders [⟨"b1", ["x"], ["y"]⟩, ⟨"b2", ["y"], ["x"]⟩, ⟨"b3", [], ["x"]⟩] =
        .error cycleErr ↔
      HasCycle [⟨"b1", ["x"], ["y"]⟩, ⟨"b2", ["y"], ["x"]⟩, ⟨"b3", [], ["x"]⟩]) := by
  intro h
  have hcyc : HasCycle [⟨"b1", ["x"], ["y"]⟩, ⟨"b2", ["y"], ["x"]⟩, ⟨"b3", [], ["x"]⟩] :=
    ⟨0, Relation.TransGen.head (show (1 : Nat) ∈ depsOf _ 0 by decide)
      (Relation.TransGen.single (show (0 : Nat) ∈ depsOf _ 1 by decide))⟩
  have herr := h.mpr hcyc
  have hdup : sortBuilders [⟨"b1", ["x"], ["y"]⟩, ⟨"b2", ["y"], ["x"]⟩, ⟨"b3", [], ["x"]⟩] =
      .error (dupErr "x") := by rfl
  rw [hdup, Except.error.injEq] at herr
  exact dupErr_ne_cycleErr "x" herr

/-! ## Completeness and ordering of the Kahn batches -/

lemma kahn_ok_flatten_perm {builders : List BuilderSig} :
    ∀ fuel pending batches, kahn builders fuel pending = .ok batches →
      batches.flatten.Perm pending := by
  intro fuel
  induction fuel with
  | zero =>
    intro pending batches h
    cases pending with
    | nil => simp only [kahn] at h; cases h; simp
    | cons i rest => simp only [kahn] at h; cases h
  | succ fuel ih =>
    intro pending batches h
    cases pending with
    | nil => simp only [kahn] at h; cases h; simp
    | cons i rest =>
      simp only [kahn] at h
      split at h
      · cases h
      · rename_i hready
        split at h
        · rename_i batches' hrec
          cases h
          rw [List.flatten_cons]
          have hperm := ih _ _ hrec
          have hcongr : List.filter (fun a => decide (¬ a ∈ List.filter
                (fun a => decide (∀ j ∈ depsOf builders a, ¬ j ∈ i :: rest)) (i :: rest)))
              (i :: rest) =
              List.filter
                (fun a => !(decide (∀ j ∈ depsOf builders a, ¬ j ∈ i :: rest)))
                (i :: rest) := by
            apply List.filter_congr
            intro x hx
            by_cases hp : ∀ j ∈ depsOf builders x, ¬ j ∈ i :: rest
            · have hxr : x ∈ List.filter
                  (fun a => decide (∀ j ∈ depsOf builders a, ¬ j ∈ i :: rest)) (i :: rest) :=
                List.mem_filter.mpr ⟨hx, decide_eq_true hp⟩
              rw [decide_eq_false (not_not_intro hxr), decide_eq_true hp]
              rfl
            · have hxr : ¬ x ∈ List.filter
                  (fun a => decide (∀ j ∈ depsOf builders a, ¬ j ∈ i :: rest)) (i :: rest) :=
                fun hmem => hp (of_decide_eq_true (List.mem_filter.mp hmem).2)
              rw [decide_eq_true hxr, decide_eq_false hp]
              rfl
          have hperm2 : batches'.flatten.Perm
              (List.filter
                (fun a => !(decide (∀ j ∈ depsOf builders a, ¬ j ∈ i :: rest)))
                (i :: rest)) := by
            rw [← hcongr]
            exact hperm
          exact (List.Perm.append_left _ hperm2).trans (List.filter_append_perm _ _)
        · cases h

/-- C3 (amended): `sortBuilders` fails with the cycle-detected error iff
the duplicate-producer check passes (no output id is declared twice) and
the builder dependency graph — producer/consumer edges between distinct
builders, self-edges pruned as the source prescribes — contains a cycle;
and with no such cycle and no duplicate, no cycle error is raised and
every builder is eventually scheduled (the batches concatenate to a
permutation of all builder indices). -/
theorem sortBuilders_cycle_error_iff (builders : List BuilderSig) :
    (sortBuilders builders = .error cycleErr ↔
      (outputsConcat builders).Nodup ∧ HasCycle builders) ∧
    ((outputsConcat builders).Nodup → ¬ HasCycle builders →
      ∃ batches, sortBuilders builders = .ok batches ∧
        batches.flatten.Perm (List.range builders.length)) := by
  constructor
  · constructor
    · intro h
      unfold sortBuilders at h
      cases hfd : firstDuplicate (outputsConcat builders) [] with
      | some o =>
        rw [hfd] at h
        have hde : dupErr o = cycleErr := by
          have h2 := h
          rwa [Except.error.injEq] at h2
        exact absurd hde (dupErr_ne_cycleErr o)
      | none =>
        rw [hfd] at h
        refine ⟨(firstDuplicate_eq_none.mp hfd).1, ?_⟩
        exact kahn_error_hasCycle _ _ _ (by simp) h
    · rintro ⟨hnd, hc⟩
      exact sortBuilders_error_of_hasCycle hnd hc
  · intro hnd hnc
    cases hsb : sortBuilders builders with
    | error e =>
      exfalso
      unfold sortBuilders at hsb
      rw [firstDuplicate_eq_none.mpr ⟨hnd, by simp⟩] at hsb
      exact hnc (kahn_error_hasCycle _ _ _ (by simp) hsb)
    | ok batches =>
      refine ⟨batches, rfl, ?_⟩
      have hkahn : kahn builders builders.length (List.range builders.length) =
          .ok batches := by
        unfold sortBuilders at hsb
        rwa [firstDuplicate_eq_none.mpr ⟨hnd, by simp⟩] at hsb
      exact kahn_ok_flatten_perm _ _ _ hkahn

/-- Witness for C3's amended claim at a concrete input: a single
no-input builder set is duplicate-free and cycle-free, so `sortBuilders`
raises no cycle error and schedules the builder. -/
theorem sortBuilders_cycle_error_iff_witness :
    ∃ batches, sortBuilders [⟨"b1", [], ["x"]⟩] = .ok batches ∧
      batches.flatten.Perm
        (List.range ([(⟨"b1", [], ["x"]⟩ : BuilderSig)]).length) :=
  (sortBuilders_cycle_error_iff [⟨"b1", [], ["x"]⟩]).2 (by decide) (by
    rintro ⟨i, hi⟩
    obtain ⟨c, hic, -⟩ := Relation.TransGen.head'_iff.mp hi
    have hds : depsOf [(⟨"b1", [], ["x"]⟩ : BuilderSig)] i = [] := by
      cases i with
      | zero => rfl
      | succ n => rfl
    have hmem : c ∈ depsOf [(⟨"b1", [], ["x"]⟩ : BuilderSig)] i := hic
    rw [hds] at hmem
    exact List.not_mem_nil c hmem)

lemma kahn_ok_deps_earlier {builders : List BuilderSig} :
    ∀ fuel pending batches, kahn builders fuel pending = .ok batches →
      ∀ k a j, a ∈ batches.getD k [] → j ∈ depsOf builders a →
        (¬ j ∈ pending) ∨ ∃ k' < k, j ∈ batches.getD k' [] := by
  intro fuel
  induction fuel with
  | zero =>
    intro pending batches h k a j ha hj
    cases pending with
    | nil => simp only [kahn] at h; cases h; simp at ha
    | cons i rest => simp only [kahn] at h; cases h
  | succ fuel ih =>
    intro pending batches h k a j ha hj
    cases pending with
    | nil => simp only [kahn] at h; cases h; simp at ha
    | cons i rest =>
      simp only [kahn] at h
      split at h
      · cases h
      · rename_i hready
        split at h
        · rename_i batches' hrec
          cases h
          cases k with
          | zero =>
            rw [List.getD_cons_zero] at ha
            have hpred := (List.mem_filter.mp ha).2
            rw [decide_eq_true_iff] at hpred
            exact Or.inl (hpred j hj)
          | succ k' =>
            rw [List.getD_cons_succ] at ha
            rcases ih _ _ hrec k' a j ha hj with hnp | ⟨k'', hk'', hmem⟩
            · by_cases hjp : j ∈ (i :: rest)
              · right
                refine ⟨0, Nat.succ_pos _, ?_⟩
                rw [List.getD_cons_zero]
                by_contra hjr
                apply hnp
                refine List.mem_filter.mpr ⟨hjp, ?_⟩
                exact decide_eq_true hjr
              · exact Or.inl hjp
            · exact Or.inr ⟨k'' + 1, Nat.succ_lt_succ hk'', by rwa [List.getD_cons_succ]⟩
        · cases h

lemma getD_eq_default_of_le {l : List BuilderSig} {i : Nat} (h : l.length ≤ i) :
    l.getD i default = default := by
  rw [List.getD_eq_getElem?_getD, List.getElem?_eq_none (by simpa using h)]
  rfl

lemma producesInputOf_lt {builders : List BuilderSig} {j i : Nat}
    (h : ProducesInputOf builders j i) : j < builders.length := by
  obtain ⟨a, -, haj⟩ := h
  by_contra hge
  rw [getD_eq_default_of_le (Nat.le_of_not_lt hge)] at haj
  exact List.not_mem_nil a haj

lemma findProducer_eq_of_mem {builders : List BuilderSig}
    (hnd : (outputsConcat builders).Nodup) {a : String} {j : Nat}
    (hj : j < builders.length) (ha : a ∈ (builders.getD j default).outputs) :
    findProducer builders a = some j := by
  cases hfp : findProducer builders a with
  | none =>
    unfold findProducer at hfp
    rw [List.find?_eq_none] at hfp
    exact absurd (by simpa using ha) (by simpa using hfp j (List.mem_range.mpr hj))
  | some j' =>
    unfold findProducer at hfp
    have hj' : a ∈ (builders.getD j' default).outputs := by
      have := List.find?_some hfp
      simpa using this
    have hj'lt : j' < builders.length := by
      have := List.mem_of_find?_eq_some hfp
      simpa using this
    by_cases he : j' = j
    · rw [he]
    · exfalso
      have h2 : 2 ≤ (outputsConcat builders).count a := by
        unfold outputsConcat
        rcases Nat.lt_or_ge j' j with hlt | hge
        · exact two_le_count_flatten hlt (by simpa using hj)
            (by rw [getD_map_outputs hj'lt]; exact hj')
            (by rw [getD_map_outputs hj]; exact ha)
        · have hlt : j < j' := Nat.lt_of_le_of_ne hge (fun e => he e.symm)
          exact two_le_count_flatten hlt (by simpa using hj'lt)
            (by rw [getD_map_outputs hj]; exact ha)
            (by rw [getD_map_outputs hj'lt]; exact hj')
      have := List.nodup_iff_count_le_one.mp hnd a
      omega

lemma depsOf_iff {builders : List BuilderSig}
    (hnd : (outputsConcat builders).Nodup) {i j : Nat} :
    j ∈ depsOf builders i ↔ (ProducesInputOf builders j i ∧ ¬ j = i) := by
  unfold depsOf
  rw [List.mem_filter, List.mem_filterMap]
  constructor
  · rintro ⟨⟨x, hx, hfp⟩, hji⟩
    refine ⟨⟨x, hx, ?_⟩, by simpa using hji⟩
    unfold findProducer at hfp
    have := List.find?_some hfp
    simpa using this
  · rintro ⟨⟨x, hxi, hxj⟩, hji⟩
    have hjlt : j < builders.length := producesInputOf_lt ⟨x, hxi, hxj⟩
    exact ⟨⟨x, hxi, findProducer_eq_of_mem hnd hjlt hxj⟩, by simpa using hji⟩

lemma hasCycle_hasRawCycle {builders : List BuilderSig}
    (hnd : (outputsConcat builders).Nodup) (h : HasCycle builders) :
    HasRawCycle builders := by
  obtain ⟨i, hi⟩ := h
  exact ⟨i, hi.mono (fun a b hab => ((depsOf_iff hnd).mp hab).1)⟩

/-- C1: for a builder set with no duplicate output declaration and no
cycle in the raw producer/consumer dependency graph, `sortBuilders`
succeeds, the concatenation of its batches is a permutation of all
builder indices (every builder exactly once), and every builder that
produces one of a scheduled builder's declared inputs sits in a strictly
earlier batch. -/
theorem sortBuilders_complete_and_ordered (builders : List BuilderSig)
    (hnd : (outputsConcat builders).Nodup) (hnc : ¬ HasRawCycle builders) :
    ∃ batches, sortBuilders builders = .ok batches ∧
      batches.flatten.Perm (List.range builders.length) ∧
      ∀ a j k, ProducesInputOf builders j a → a ∈ batches.getD k [] →
        ∃ k' < k, j ∈ batches.getD k' [] := by
  have hok : ∃ batches, sortBuilders builders = .ok batches := by
    cases hsb : sortBuilders builders with
    | ok b => exact ⟨b, rfl⟩
    | error e =>
      unfold sortBuilders at hsb
      rw [firstDuplicate_eq_none.mpr ⟨hnd, by simp⟩] at hsb
      exact absurd (hasCycle_hasRawCycle hnd (kahn_error_hasCycle _ _ _ (by simp) hsb)) hnc
  obtain ⟨batches, hsb⟩ := hok
  have hkahn : kahn builders builders.length (List.range builders.length) = .ok batches := by
    unfold sortBuilders at hsb
    rwa [firstDuplicate_eq_none.mpr ⟨hnd, by simp⟩] at hsb
  refine ⟨batches, hsb, kahn_ok_flatten_perm _ _ _ hkahn, ?_⟩
  intro a j k hprod ha
  have hji : ¬ j = a := by
    rintro rfl
    exact hnc ⟨j, Relation.TransGen.single hprod⟩
  have hdep : j ∈ depsOf builders a := (depsOf_iff hnd).mpr ⟨hprod, hji⟩
  rcases kahn_ok_deps_earlier _ _ _ hkahn k a j ha hdep with hnp | hfound
  · exact absurd (List.mem_range.mpr (producesInputOf_lt hprod)) hnp
  · exact hfound

lemma no_cycle_of_rank {R : Nat → Nat → Prop} (φ : Nat → Nat)
    (h : ∀ a b, R a b → φ b < φ a) : ¬ ∃ i, Relation.TransGen R i i := by
  rintro ⟨i, hi⟩
  have hmono : ∀ a b, Relation.TransGen R a b → φ b < φ a := by
    intro a b hab
    induction hab with
    | single h1 => exact h _ _ h1
    | tail hab h1 ih => exact lt_trans (h _ _ h1) ih
  exact lt_irrefl _ (hmono i i hi)

def c1Builders : List BuilderSig :=
  [⟨"B1", [], ["A", "B"]⟩, ⟨"B2", ["A"], ["C", "D"]⟩,
   ⟨"B3", ["B"], ["E"]⟩, ⟨"B4", ["A", "B", "C"], ["F"]⟩]

/-- Witness for C1 at the spec's concrete scenario B1()→{A,B},
B2(A)→{C,D}, B3(B)→{E}, B4(A,B,C)→{F}; acyclicity is discharged with
the rank 0, 1, 1, 2. -/
theorem sortBuilders_complete_and_ordered_witness :
    ∃ batches, sortBuilders c1Builders = .ok batches ∧
      batches.flatten.Perm (List.range c1Builders.length) ∧
      ∀ a j k, ProducesInputOf c1Builders j a → a ∈ batches.getD k [] →
        ∃ k' < k, j ∈ batches.getD k' [] :=
  sortBuilders_complete_and_ordered c1Builders (by decide) (by
    apply no_cycle_of_rank (fun n => if n = 0 then 0 else if n = 3 then 2 else 1)
    rintro a b ⟨s, hsa, hsb⟩
    have ha4 : a < 4 := by
      by_contra hge
      rw [getD_eq_default_of_le (by simpa [c1Builders] using Nat.le_of_not_lt hge)] at hsa
      exact List.not_mem_nil s hsa
    have hb4 : b < 4 := by
      by_contra hge
      rw [getD_eq_default_of_le (by simpa [c1Builders] using Nat.le_of_not_lt hge)] at hsb
      exact List.not_mem_nil s hsb
    interval_cases a <;> interval_cases b <;> revert s <;> decide)

/-! ## Reachability: the code's fixpoint vs. the spec's closure -/

/-- Modelled from the spec's wording ("producible by composing builders
starting from those with no inputs"): an artifact id is producible when
some builder, all of whose declared inputs are producible, declares it
among its outputs; builders with no inputs are the base case. -/
inductive Producible (builders : List BuilderSig) : String → Prop
  | step (i : Nat) (hi : i < builders.length)
      (hins : ∀ a ∈ (builders.getD i default).inputs, Producible builders a)
      {o : String} (ho : o ∈ (builders.getD i default).outputs) :
      Producible builders o

lemma firePass_reach_mono {builders : List BuilderSig} :
    ∀ rem reach x, x ∈ reach → x ∈ (firePass builders rem reach).2.1 := by
  intro rem
  induction rem with
  | nil => intro reach x hx; exact hx
  | cons i rest ih =>
    intro reach x hx
    simp only [firePass]
    split
    · exact ih _ _ (List.mem_append_left _ hx)
    · exact ih _ _ hx

lemma firePass_rem_subset {builders : List BuilderSig} :
    ∀ rem reach x, x ∈ (firePass builders rem reach).1 → x ∈ rem := by
  intro rem
  induction rem with
  | nil => intro reach x hx; exact hx
  | cons i rest ih =>
    intro reach x hx
    simp only [firePass] at hx
    split at hx
    · exact List.mem_cons_of_mem _ (ih _ _ hx)
    · rcases List.mem_cons.mp hx with rfl | hx'
      · exact List.mem_cons_self _ _
      · exact List.mem_cons_of_mem _ (ih _ _ hx')

lemma firePass_len_le {builders : List BuilderSig} :
    ∀ rem reach, (firePass builders rem reach).1.length ≤ rem.length := by
  intro rem
  induction rem with
  | nil => intro reach; exact Nat.le_refl _
  | cons i rest ih =>
    intro reach
    simp only [firePass]
    split
    · exact Nat.le_succ_of_le (ih _)
    · simpa using Nat.succ_le_succ (ih reach)

lemma firePass_adv_len_lt {builders : List BuilderSig} :
    ∀ rem reach, (firePass builders rem reach).2.2 = true →
      (firePass builders rem reach).1.length < rem.length := by
  intro rem
  induction rem with
  | nil => intro reach h; simp [firePass] at h
  | cons i rest ih =>
    intro reach h
    simp only [firePass] at h ⊢
    split at h
    · rename_i hfire
      rw [if_pos hfire]
      exact Nat.lt_succ_of_le (firePass_len_le _ _)
    · rename_i hfire
      rw [if_neg hfire]
      simpa using Nat.succ_lt_succ (ih _ h)

lemma firePass_no_adv {builders : List BuilderSig} :
    ∀ rem reach, (firePass builders rem reach).2.2 = false →
      (firePass builders rem reach).1 = rem ∧
      (firePass builders rem reach).2.1 = reach ∧
      ∀ i ∈ rem, ∃ a ∈ (builders.getD i default).inputs, ¬ a ∈ reach := by
  intro rem
  induction rem with
  | nil =>
    intro reach h
    exact ⟨rfl, rfl, by simp⟩
  | cons i rest ih =>
    intro reach h
    simp only [firePass] at h ⊢
    split at h
    · rename_i hfire
      dsimp only at h
      cases h
    · rename_i hfire
      dsimp only at h
      rw [if_neg hfire]
      dsimp only
      obtain ⟨h1, h2, h3⟩ := ih reach h
      refine ⟨by rw [h1], h2, ?_⟩
      intro a ha
      rcases List.mem_cons.mp ha with rfl | ha'
      · rw [List.all_eq_true] at hfire
        push_neg at hfire
        obtain ⟨x, hx, hnx⟩ := hfire
        exact ⟨x, hx, by simpa using hnx⟩
      · exact h3 a ha'

lemma firePass_sound {builders : List BuilderSig} :
    ∀ rem reach, (∀ x ∈ reach, Producible builders x) →
      (∀ i ∈ rem, i < builders.length) →
      ∀ x ∈ (firePass builders rem reach).2.1, Producible builders x := by
  intro rem
  induction rem with
  | nil => intro reach hs hb x hx; exact hs x hx
  | cons i rest ih =>
    intro reach hs hb x hx
    simp only [firePass] at hx
    split at hx
    · rename_i hfire
      refine ih _ ?_ (fun j hj => hb j (List.mem_cons_of_mem _ hj)) x hx
      intro y hy
      rcases List.mem_append.mp hy with hy' | hy'
      · exact hs y hy'
      · refine Producible.step i (hb i (List.mem_cons_self _ _)) ?_ hy'
        intro a ha
        have := List.all_eq_true.mp hfire a ha
        exact hs a (of_decide_eq_true this)
    · exact ih _ hs (fun j hj => hb j (List.mem_cons_of_mem _ hj)) x hx

lemma firePass_fired_outputs {builders : List BuilderSig} :
    ∀ rem reach i, i ∈ rem → ¬ i ∈ (firePass builders rem reach).1 →
      ∀ o ∈ (builders.getD i default).outputs, o ∈ (firePass builders rem reach).2.1 := by
  intro rem
  induction rem with
  | nil => intro reach i hi; exact absurd hi (List.not_mem_nil i)
  | cons j rest ih =>
    intro reach i hi hni o ho
    simp only [firePass] at hni ⊢
    split at hni
    · rename_i hfire
      dsimp only at hni
      rw [if_pos hfire]
      dsimp only
      rcases List.mem_cons.mp hi with rfl | hi'
      · exact firePass_reach_mono _ _ _ (List.mem_append_right _ ho)
      · exact ih _ i hi' hni o ho
    · rename_i hfire
      dsimp only at hni
      rw [if_neg hfire]
      dsimp only
      rcases List.mem_cons.mp hi with rfl | hi'
      · exact absurd (List.mem_cons_self _ _) hni
      · exact ih _ i hi' (fun hmem => hni (List.mem_cons_of_mem _ hmem)) o ho

lemma reachLoop_fixpoint {builders : List BuilderSig} :
    ∀ fuel rem reach, rem.length < fuel →
      (∀ i ∈ rem, i < builders.length) →
      (∀ x ∈ reach, Producible builders x) →
      (∀ i, i < builders.length → ¬ i ∈ rem →
        ∀ o ∈ (builders.getD i default).outputs, o ∈ reach) →
      (∀ x ∈ reachLoop builders fuel rem reach, Producible builders x) ∧
      ∃ remF : List Nat,
        (∀ i, i < builders.length → ¬ i ∈ remF →
          ∀ o ∈ (builders.getD i default).outputs,
            o ∈ reachLoop builders fuel rem reach) ∧
        (∀ i ∈ remF, ∃ a ∈ (builders.getD i default).inputs,
          ¬ a ∈ reachLoop builders fuel rem reach) := by
  intro fuel
  induction fuel with
  | zero => intro rem reach hf; omega
  | succ fuel ih =>
    intro rem reach hf hb hs hrm
    simp only [reachLoop]
    cases hadv : (firePass builders rem reach).2.2 with
    | false =>
      rw [if_neg Bool.false_ne_true]
      obtain ⟨h1, h2, h3⟩ := firePass_no_adv rem reach hadv
      exact ⟨hs, rem, hrm, h3⟩
    | true =>
      rw [if_pos rfl]
      have hlen : (firePass builders rem reach).1.length < fuel :=
        lt_of_lt_of_le (firePass_adv_len_lt rem reach hadv) (Nat.lt_succ_iff.mp hf)
      refine ih _ _ hlen
        (fun i hi => hb i (firePass_rem_subset _ _ _ hi))
        (firePass_sound rem reach hs hb) ?_
      intro i hi hni o ho
      by_cases hirem : i ∈ rem
      · exact firePass_fired_outputs rem reach i hirem hni o ho
      · exact firePass_reach_mono _ _ _ (hrm i hi hirem o ho)

lemma producible_mem_reachLoop {builders : List BuilderSig} {s : String}
    (hp : Producible builders s) :
    s ∈ reachLoop builders (builders.length + 1)
      (List.range builders.length) [] := by
  obtain ⟨-, remF, hrm, hstuck⟩ := @reachLoop_fixpoint builders
    (builders.length + 1) (List.range builders.length) []
    (by simp) (fun i hi => List.mem_range.mp hi) (by simp) (by
      intro i hi hni
      exact absurd (List.mem_range.mpr hi) hni)
  induction hp with
  | step i hi hins ho ih =>
    by_cases hiF : i ∈ remF
    · obtain ⟨a, ha, hna⟩ := hstuck i hiF
      exact absurd (ih a ha) hna
    · exact hrm i hi hiF _ ho

lemma reachLoop_sound {builders : List BuilderSig} :
    ∀ x ∈ reachLoop builders (builders.length + 1)
      (List.range builders.length) [], Producible builders x :=
  (@reachLoop_fixpoint builders
    (builders.length + 1) (List.range builders.length) []
    (by simp) (fun i hi => List.mem_range.mp hi) (by simp) (by
      intro i hi hni
      exact absurd (List.mem_range.mpr hi) hni)).1

lemma mem_dedupFirstAux {x : String} :
    ∀ n (l : List String), l.length ≤ n → (x ∈ dedupFirstAux n l ↔ x ∈ l) := by
  intro n
  induction n with
  | zero =>
    intro l hl
    cases l with
    | nil => simp [dedupFirstAux]
    | cons y ys => simp at hl
  | succ n ih =>
    intro l hl
    cases l with
    | nil => simp [dedupFirstAux]
    | cons y ys =>
      simp only [dedupFirstAux, List.mem_cons]
      rw [ih _ (le_trans (List.length_filter_le _ _) (by simpa using hl))]
      constructor
      · rintro (rfl | hmem)
        · exact Or.inl rfl
        · exact Or.inr (List.mem_filter.mp hmem).1
      · rintro (rfl | hmem)
        · exact Or.inl rfl
        · by_cases hxy : x = y
          · exact Or.inl hxy
          · exact Or.inr (List.mem_filter.mpr ⟨hmem, decide_eq_true hxy⟩)

lemma mem_dedupFirst {x : String} {l : List String} : x ∈ dedupFirst l ↔ x ∈ l :=
  mem_dedupFirstAux l.length l (Nat.le_refl _)

lemma dedupFirstAux_nodup : ∀ n (l : List String), l.length ≤ n →
    (dedupFirstAux n l).Nodup := by
  intro n
  induction n with
  | zero => intro l hl; cases l <;> simp [dedupFirstAux] at hl ⊢
  | succ n ih =>
    intro l hl
    cases l with
    | nil => simp [dedupFirstAux]
    | cons y ys =>
      have hlen : (ys.filter (fun z => decide (¬ z = y))).length ≤ n :=
        le_trans (List.length_filter_le _ _) (by simpa using hl)
      rw [dedupFirstAux, List.nodup_cons]
      refine ⟨?_, ih _ hlen⟩
      intro hmem
      rw [mem_dedupFirstAux _ _ hlen] at hmem
      exact absurd rfl (of_decide_eq_true (List.mem_filter.mp hmem).2)

lemma dedupFirst_nodup {l : List String} : (dedupFirst l).Nodup :=
  dedupFirstAux_nodup l.length l (Nat.le_refl _)

lemma mem_universeIds {builders : List BuilderSig} {s : String} :
    s ∈ universeIds builders ↔ ∃ b ∈ builders, s ∈ b.inputs ∨ s ∈ b.outputs := by
  unfold universeIds
  rw [mem_dedupFirst, List.mem_append]
  simp only [List.mem_flatten, List.mem_map]
  constructor
  · rintro (⟨l, ⟨b, hb, rfl⟩, hs⟩ | ⟨l, ⟨b, hb, rfl⟩, hs⟩)
    · exact ⟨b, hb, Or.inr hs⟩
    · exact ⟨b, hb, Or.inl hs⟩
  · rintro ⟨b, hb, hs | hs⟩
    · exact Or.inr ⟨b.inputs, ⟨b, hb, rfl⟩, hs⟩
    · exact Or.inl ⟨b.outputs, ⟨b, hb, rfl⟩, hs⟩

/-- C4: (1) an id is returned by `findUnreachableArtifacts` iff it is
mentioned in some builder's inputs or outputs and is not producible by
composing builders starting from those with no inputs; (2) the result is
empty iff every mentioned id is so producible; (3) each unreachable id
is listed once; (4) the `ArtifactGraph` constructor — which never sees
any run-time pre-supplied artifacts — fails with the error listing
exactly those ids whenever the set is non-empty. -/
theorem findUnreachable_iff_producible (builders : List BuilderSig) :
    (∀ s, s ∈ findUnreachableArtifacts builders ↔
      ((∃ b ∈ builders, s ∈ b.inputs ∨ s ∈ b.outputs) ∧ ¬ Producible builders s)) ∧
    (findUnreachableArtifacts builders = [] ↔
      ∀ s, (∃ b ∈ builders, s ∈ b.inputs ∨ s ∈ b.outputs) → Producible builders s) ∧
    (findUnreachableArtifacts builders).Nodup ∧
    (∀ (fids : List String) (bs : List ArtifactBuilder) (conds : List Condition),
      ¬ findUnreachableArtifacts (bs.map ArtifactBuilder.sig) = [] →
        mkArtifactGraph fids bs conds = .error ("Unreachable artifact(s): " ++
          String.intercalate ", " (findUnreachableArtifacts (bs.map ArtifactBuilder.sig)))) := by
  have hmem : ∀ s, s ∈ findUnreachableArtifacts builders ↔
      ((∃ b ∈ builders, s ∈ b.inputs ∨ s ∈ b.outputs) ∧ ¬ Producible builders s) := by
    intro s
    unfold findUnreachableArtifacts
    rw [List.mem_filter, mem_universeIds]
    constructor
    · rintro ⟨hu, hnr⟩
      rw [decide_eq_true_iff] at hnr
      exact ⟨hu, fun hp => hnr (producible_mem_reachLoop hp)⟩
    · rintro ⟨hu, hnp⟩
      refine ⟨hu, decide_eq_true ?_⟩
      intro hmem
      exact hnp (reachLoop_sound _ hmem)
  refine ⟨hmem, ?_, ?_, ?_⟩
  · rw [List.eq_nil_iff_forall_not_mem]
    constructor
    · intro h s hu
      by_contra hnp
      exact h s ((hmem s).mpr ⟨hu, hnp⟩)
    · intro h s hs
      obtain ⟨hu, hnp⟩ := (hmem s).mp hs
      exact hnp (h s hu)
  · exact List.Nodup.filter _ dedupFirst_nodup
  · intro fids bs conds hne
    unfold mkArtifactGraph
    rw [if_neg hne]

/-- Witness for C4 at the spec's concrete scenario: B1(X)→{Y} with no
producer for X makes construction fail listing the unreachable set
{Y, X}. -/
theorem findUnreachable_iff_producible_witness :
    mkArtifactGraph [] [⟨"B1", ["X"], ["Y"], fun _ => []⟩] [] =
      .error ("Unreachable artifact(s): " ++ String.intercalate ", "
        (findUnreachableArtifacts
          ([(⟨"B1", ["X"], ["Y"], fun _ => []⟩ : ArtifactBuilder)].map
            ArtifactBuilder.sig))) :=
  (findUnreachable_iff_producible []).2.2.2 []
    [⟨"B1", ["X"], ["Y"], fun _ => []⟩] [] (by decide)

end AG
